import Mathlib

/-!
Verification development for the size-aware bulk commit pipeline of
github-mcp-mod: the file-batch validator (`ValidateFiles`,
`ValidateFileSize`, `ValidateChunkSize`, pkg/github/validation.go), the
greedy chunk planner and orchestrator inside the `PushFilesChunked`
handler, the single-chunk commit pipeline `pushChunk`, and the retry
driver `RetryWithBackoff` (pkg/ratelimit/ratelimit.go).

Modelling conventions: Go strings used as byte payloads are modelled as
`List Nat` (a byte sequence; `len` in Go is the byte length, which is
`List.length` here).  Go `int64` byte sizes are `Nat` (all sizes in the
code are non-negative).  Go maps are modelled as insertion-ordered
association lists; a Go map iteration picking "some entry" is modelled
as taking the head of the association list.  Fallible Go functions
returning `error` become `Option`/`Except` values.
-/

/-- The file entry type of pkg/github/validation.go: a path together with
its content.  Content is a byte sequence; its size is its length. -/
structure FileEntry where
  Path : String
  Content : List Nat
deriving DecidableEq, Repr

/-- Modelled from the spec and the repository tests: the numeric limit
constants are declared in a repository file that is not under src/
(only their uses and tests are).  `TestFormatFileSize` pins
`MaxFileSizeBytes` to 25 MB. -/
def MaxFileSizeBytes : Nat := 26214400

/-- Modelled from the spec and the repository tests: `TestFormatFileSize`
and `TestGetMaxChunkSize` pin `MaxTotalPushSizeBytes` to 100 MB. -/
def MaxTotalPushSizeBytes : Nat := 104857600

/-- Chunk safety margin from validation.go: leave 20% below the 100MB
limit for API overhead (the Go constant is the float `0.80`; modelled
as the exact rational). -/
def ChunkSafetyMarginPercent : ℚ := 80 / 100

/-- GetMaxChunkSize from validation.go: the maximum safe chunk size with
the safety margin applied.  The Go code computes
`int64(float64(MaxTotalPushSizeBytes) * ChunkSafetyMarginPercent)`;
the product is exact (the test `TestGetMaxChunkSize` pins the result to
exactly 80*1024*1024), so the rational model coincides with the float
computation. -/
def GetMaxChunkSize : Nat := (⌊(MaxTotalPushSizeBytes : ℚ) * ChunkSafetyMarginPercent⌋).toNat

/-- Association-list lookup, modelling Go map indexing `m[k]`. -/
def alookup {α : Type} (p : String) : List (String × α) → Option α
  | [] => none
  | (q, v) :: rest => if q = p then some v else alookup p rest

/-- Association-list insert-or-update, modelling Go map assignment
`m[k] = v` (contents are what matter; this model keeps insertion
order). -/
def aupsert {α : Type} (p : String) (v : α) : List (String × α) → List (String × α)
  | [] => [(p, v)]
  | (q, w) :: rest => if q = p then (q, v) :: rest else (q, w) :: aupsert p v rest

/-- A raw element of the `files` argument (Go `[]interface{}`): either not
a JSON object at all, or an object whose "path" / "content" fields may
be absent or of the wrong type (both modelled as `none`). -/
inductive RawFile
  | notObject
  | obj (path : Option String) (content : Option (List Nat))
deriving DecidableEq, Repr

/-- The validation error values of validation.go, one constructor per
construction site of `ValidationError`; each carries the data that the
Go code puts into the message and the `Details` map. -/
inductive VError
  | invalidFileFormat (index : Nat)
  | missingFilePath (index : Nat)
  | missingFileContent (index : Nat)
  | duplicateFilePaths (rep : String) (indices : List Nat) (duplicates : List (String × List Nat))
  | fileTooLarge (path : String) (sizeBytes : Nat) (maxBytes : Nat)
  | chunkTooLarge (sizeBytes : Nat) (maxBytes : Nat) (fileCount : Nat)
deriving DecidableEq, Repr

/-- The Go `Code` string of each validation error. -/
def VError.code : VError → String
  | .invalidFileFormat _ => "INVALID_FILE_FORMAT"
  | .missingFilePath _ => "MISSING_FILE_PATH"
  | .missingFileContent _ => "MISSING_FILE_CONTENT"
  | .duplicateFilePaths _ _ _ => "DUPLICATE_FILE_PATHS"
  | .fileTooLarge _ _ _ => "FILE_TOO_LARGE"
  | .chunkTooLarge _ _ _ => "CHUNK_TOO_LARGE"

/-- FileValidationResult from validation.go. -/
structure FileValidationResult where
  TotalSize : Nat
  FileCount : Nat
  LargestFile : String
  LargestFileSize : Nat
  Duplicates : List (String × List Nat)
  OversizedFiles : List String
deriving DecidableEq, Repr

/-- The loop state of `ValidateFiles`: the `seenPaths` map, the result
record being accumulated, and the validated entries list. -/
structure VFState where
  seenPaths : List (String × Nat)
  res : FileValidationResult
  entries : List FileEntry
deriving DecidableEq, Repr

/-- One iteration of the `ValidateFiles` loop body for a well-shaped
entry with path `p` and content `c` at index `i` (validation.go lines
82-111): duplicate tracking, size accumulation, largest-file tracking,
oversized-file tracking, and appending the validated entry. -/
def stepState (p : String) (c : List Nat) (i : Nat) (st : VFState) : VFState :=
  let dups :=
    match alookup p st.seenPaths with
    | some firstIndex =>
      let d0 :=
        match alookup p st.res.Duplicates with
        | none => aupsert p [firstIndex] st.res.Duplicates
        | some _ => st.res.Duplicates
      aupsert p (((alookup p d0).getD []) ++ [i]) d0
    | none => st.res.Duplicates
  let seen := aupsert p i st.seenPaths
  let fileSize := c.length
  let lf := if st.res.LargestFileSize < fileSize then p else st.res.LargestFile
  let ls := if st.res.LargestFileSize < fileSize then fileSize else st.res.LargestFileSize
  let oversized :=
    if MaxFileSizeBytes < fileSize then st.res.OversizedFiles ++ [p] else st.res.OversizedFiles
  { seenPaths := seen
    res :=
      { TotalSize := st.res.TotalSize + fileSize
        FileCount := st.res.FileCount + 1
        LargestFile := lf
        LargestFileSize := ls
        Duplicates := dups
        OversizedFiles := oversized }
    entries := st.entries ++ [⟨p, c⟩] }

/-- The recursive core of `ValidateFiles` (validation.go lines 54-132):
walks the raw entries at index `i`, aborting on the first malformed
entry; after the walk, fails with `DUPLICATE_FILE_PATHS` if any path
was duplicated (the representative is one entry of the duplicates map,
modelled as the head of the association list). -/
def vfGo : List RawFile → Nat → VFState → Except VError (FileValidationResult × List FileEntry)
  | [], _, st =>
    match st.res.Duplicates with
    | [] => .ok (st.res, st.entries)
    | (p0, idxs) :: _ => .error (.duplicateFilePaths p0 idxs st.res.Duplicates)
  | r :: rest, i, st =>
    match r with
    | .notObject => .error (.invalidFileFormat i)
    | .obj pathOpt contentOpt =>
      match pathOpt with
      | none => .error (.missingFilePath i)
      | some p =>
        if p = "" then .error (.missingFilePath i)
        else
          match contentOpt with
          | none => .error (.missingFileContent i)
          | some c => vfGo rest (i + 1) (stepState p c i st)

/-- ValidateFiles from validation.go: comprehensive validation of a raw
file list.  (On the duplicate-path error the Go function returns the
result record alongside the error and a nil entries list; the `Except`
error carries the duplicates map and no entries.) -/
def ValidateFiles (files : List RawFile) : Except VError (FileValidationResult × List FileEntry) :=
  vfGo files 0 ⟨[], ⟨0, 0, "", 0, [], []⟩, []⟩

/-- ValidateFileSize from validation.go: errors iff `size` exceeds
`MaxFileSizeBytes`; the error carries the reported size and the
maximum (both also shown in megabytes in the Go message, derived from
these same byte values). -/
def ValidateFileSize (path : String) (size : Nat) : Option VError :=
  if MaxFileSizeBytes < size then some (.fileTooLarge path size MaxFileSizeBytes) else none

/-- The oversized-files check loop of the `PushFilesChunked` handler
(bulk file operations, lines 152-157): for each recorded oversized
path, calls `ValidateFileSize` with `validationResult.LargestFileSize`
and returns the first error produced. -/
def oversizedLoop : List String → Nat → Option VError
  | [], _ => none
  | p :: rest, largest =>
    match ValidateFileSize p largest with
    | some e => some e
    | none => oversizedLoop rest largest

/-- The oversized-files check of the `PushFilesChunked` handler applied
to a validation result. -/
def checkOversizedFiles (vr : FileValidationResult) : Option VError :=
  oversizedLoop vr.OversizedFiles vr.LargestFileSize

/-- Cumulative content byte size of a list of files (the running
`chunkSize` sum of `ValidateChunkSize` and the chunk planner). -/
def chunkBytes : List FileEntry → Nat
  | [] => 0
  | f :: fs => f.Content.length + chunkBytes fs

/-- ValidateChunkSize from validation.go: errors with `CHUNK_TOO_LARGE`
iff the cumulative content size strictly exceeds
`MaxTotalPushSizeBytes`; the error details carry the byte count and
the file count. -/
def ValidateChunkSize (files : List FileEntry) : Option VError :=
  if MaxTotalPushSizeBytes < chunkBytes files then
    some (.chunkTooLarge (chunkBytes files) MaxTotalPushSizeBytes files.length)
  else none

/-- The chunk_size clamping of the `PushFilesChunked` handler (lines
125-130), parametric in the `MaxChunkSize` constant whose declaration
is not under src/: first values above the maximum are clamped down,
then values below 1 are clamped up.  There is no error path. -/
def clampChunkSize (maxChunkSize : Int) (requested : Int) : Int :=
  let cs := if maxChunkSize < requested then maxChunkSize else requested
  if cs < 1 then 1 else cs

/-- The greedy size-aware chunking loop of the `PushFilesChunked` handler
(lines 164-195).  Arguments after the remaining files: the closed
chunks, the open chunk, its running byte size and its running file
count.  Before adding a file, if the open chunk is non-empty and
adding the file would exceed the byte ceiling or the count limit, the
open chunk is closed and a fresh one started; the file is then added
to the (possibly fresh) open chunk.  After the walk the open chunk is
closed if non-empty. -/
def planGo (chunkSize maxChunkBytes : Nat) :
    List FileEntry → List (List FileEntry) → List FileEntry → Nat → Nat → List (List FileEntry)
  | [], chunks, currentChunk, _, _ =>
    if currentChunk = [] then chunks else chunks ++ [currentChunk]
  | f :: rest, chunks, currentChunk, currentChunkSize, currentChunkFileCount =>
    let fileSize := f.Content.length
    if currentChunk ≠ [] ∧
        (maxChunkBytes < currentChunkSize + fileSize ∨ chunkSize ≤ currentChunkFileCount) then
      planGo chunkSize maxChunkBytes rest (chunks ++ [currentChunk]) [f] fileSize 1
    else
      planGo chunkSize maxChunkBytes rest chunks (currentChunk ++ [f])
        (currentChunkSize + fileSize) (currentChunkFileCount + 1)

/-- The chunk planner of the `PushFilesChunked` handler: partition the
validated files greedily under a per-chunk file-count limit and a byte
ceiling. -/
def planChunks (files : List FileEntry) (chunkSize maxChunkBytes : Nat) :
    List (List FileEntry) :=
  planGo chunkSize maxChunkBytes files [] [] 0 0

/-- ChunkResult from the bulk file operations file: the outcome record of
one chunk attempt. -/
structure ChunkResult where
  ChunkIndex : Nat
  FilesInChunk : Nat
  CommitSHA : String
  Success : Bool
  Error : String
  Files : List String
deriving DecidableEq, Repr

/-- PushFilesChunkedResult from the bulk file operations file: the
aggregate outcome of a chunked push run. -/
structure PushFilesChunkedResult where
  TotalFiles : Nat
  TotalChunks : Nat
  SuccessfulChunks : Nat
  FailedChunks : Nat
  FinalCommitSHA : String
  Chunks : List ChunkResult
  FullySuccessful : Bool
deriving DecidableEq, Repr

/-- The chunk-scoped commit message of the orchestrator (lines 215-219):
the base message, suffixed with the chunk position when there is more
than one chunk. -/
def chunkMessage (message : String) (chunkIdx total : Nat) : String :=
  if 1 < total then
    message ++ " [chunk " ++ toString (chunkIdx + 1) ++ "/" ++ toString total ++ "]"
  else message

/-- The orchestrator loop of the `PushFilesChunked` handler (lines
203-245).  `push` is the chunk-commit oracle standing for `pushChunk`
(given the chunk index, the chunk files and the chunk message it
returns a commit SHA or an error).  Returns the final result together
with the number of `pushChunk` invocations performed (an observation
of the run, counting one per loop iteration executed). -/
def processChunksGo (push : Nat → List FileEntry → String → Except String String)
    (continueOnError : Bool) (message : String) :
    List (List FileEntry) → Nat → PushFilesChunkedResult → PushFilesChunkedResult × Nat
  | [], _, acc => ({ acc with FullySuccessful := acc.FailedChunks = 0 }, 0)
  | chunkFiles :: rest, chunkIdx, acc =>
    let cr0 : ChunkResult :=
      { ChunkIndex := chunkIdx + 1
        FilesInChunk := chunkFiles.length
        CommitSHA := ""
        Success := false
        Error := ""
        Files := chunkFiles.map (·.Path) }
    match push chunkIdx chunkFiles (chunkMessage message chunkIdx acc.TotalChunks) with
    | .error e =>
      let cr := { cr0 with Success := false, Error := e }
      let acc1 := { acc with FailedChunks := acc.FailedChunks + 1 }
      if !continueOnError then
        ({ acc1 with Chunks := acc1.Chunks ++ [cr], FullySuccessful := false }, 1)
      else
        let out := processChunksGo push continueOnError message rest (chunkIdx + 1)
          { acc1 with Chunks := acc1.Chunks ++ [cr] }
        (out.1, out.2 + 1)
    | .ok commitSHA =>
      let cr := { cr0 with Success := true, CommitSHA := commitSHA }
      let out := processChunksGo push continueOnError message rest (chunkIdx + 1)
        { acc with
            SuccessfulChunks := acc.SuccessfulChunks + 1
            FinalCommitSHA := commitSHA
            Chunks := acc.Chunks ++ [cr] }
      (out.1, out.2 + 1)

/-- The chunked-push orchestrator over an already-planned chunk list:
initial result record as built at lines 197-201, then the chunk loop. -/
def PushFilesChunkedRun (push : Nat → List FileEntry → String → Except String String)
    (continueOnError : Bool) (message : String) (files : List FileEntry)
    (chunks : List (List FileEntry)) : PushFilesChunkedResult × Nat :=
  processChunksGo push continueOnError message chunks 0
    { TotalFiles := files.length
      TotalChunks := chunks.length
      SuccessfulChunks := 0
      FailedChunks := 0
      FinalCommitSHA := ""
      Chunks := []
      FullySuccessful := false }

/-- The remote calls observable in a `pushChunk` run, plus the
rate-limiter acquisition event that a rate-limiter gate (`WaitCore` of
pkg/ratelimit) would contribute if it were invoked. -/
inductive RemoteCall
  | acquireGate
  | getRef
  | getCommit
  | createTree
  | createCommit
  | updateRef
deriving DecidableEq, Repr

/-- A branch reference as returned by the ref lookup: its name and the
SHA of the object it points to. -/
structure RefObj where
  Ref : String
  SHA : String
deriving DecidableEq, Repr

/-- A commit as returned by the commit lookup: its SHA and its tree's
SHA. -/
structure CommitObj where
  SHA : String
  TreeSHA : String
deriving DecidableEq, Repr

/-- A tree entry as built by `pushChunk` (path, file mode, object type,
literal content). -/
structure TreeEntry where
  Path : String
  Mode : String
  EType : String
  Content : List Nat
deriving DecidableEq, Repr

/-- The remote object-store client consumed by `pushChunk`: the five
operations of the external collaborator, each fallible. -/
structure GitClient where
  getRef : String → Except String RefObj
  getCommit : String → Except String CommitObj
  createTree : String → List TreeEntry → Except String String
  createCommit : String → String → List String → Except String String
  updateRef : String → String → Bool → Except String String

/-- Failure of a `pushChunk` run: the pre-send chunk-size validation
error, or a remote step's failure wrapped with the step context
string used in the source. -/
inductive PushErr
  | chunkTooLarge (e : VError)
  | stepFailed (step : String) (msg : String)
deriving DecidableEq, Repr

/-- pushChunk from the bulk file operations file (lines 258-325): chunk
size validation, then the five-step remote sequence (branch-ref lookup,
base-commit lookup, tree creation, commit creation, non-force ref
update).  Returns the new commit SHA or the first failure, together
with the ordered list of remote calls issued (the observable trace of
the run). -/
def pushChunk (client : GitClient) (branch message : String) (files : List FileEntry) :
    Except PushErr String × List RemoteCall :=
  match ValidateChunkSize files with
  | some e => (.error (.chunkTooLarge e), [])
  | none =>
    match client.getRef ("refs/heads/" ++ branch) with
    | .error m => (.error (.stepFailed ("failed to get branch reference") m), [.getRef])
    | .ok ref =>
      match client.getCommit ref.SHA with
      | .error m =>
        (.error (.stepFailed ("failed to get base commit") m), [.getRef, .getCommit])
      | .ok baseCommit =>
        let entries := files.map (fun f => TreeEntry.mk f.Path ("100644") ("blob") f.Content)
        match client.createTree baseCommit.TreeSHA entries with
        | .error m =>
          (.error (.stepFailed ("failed to create tree") m), [.getRef, .getCommit, .createTree])
        | .ok newTreeSHA =>
          match client.createCommit message newTreeSHA [baseCommit.SHA] with
          | .error m =>
            (.error (.stepFailed ("failed to create commit") m),
              [.getRef, .getCommit, .createTree, .createCommit])
          | .ok newSHA =>
            match client.updateRef ref.Ref newSHA false with
            | .error m =>
              (.error (.stepFailed ("failed to update reference") m),
                [.getRef, .getCommit, .createTree, .createCommit, .updateRef])
            | .ok _ =>
              (.ok newSHA, [.getRef, .getCommit, .createTree, .createCommit, .updateRef])

/-- RetryConfig from pkg/ratelimit/ratelimit.go.  Durations are in
nanoseconds (Go `time.Duration`); the backoff factor is the exact
rational standing for the Go float64. -/
structure RetryConfig where
  MaxRetries : Nat
  InitialBackoff : Nat
  MaxBackoff : Nat
  BackoffFactor : ℚ

/-- The backoff update of `RetryWithBackoff` (lines 201-205):
`backoff = time.Duration(float64(backoff) * cfg.BackoffFactor)` then
capped at `MaxBackoff` when strictly above it.  The conversion to a
duration truncates; a negative product clamps to zero. -/
def nextBackoff (cfg : RetryConfig) (b : Nat) : Nat :=
  let nb := (⌊(b : ℚ) * cfg.BackoffFactor⌋).toNat
  if cfg.MaxBackoff < nb then cfg.MaxBackoff else nb

/-- Outcome of a `RetryWithBackoff` run: success, the cancellation error
(`ctx.Err()`), or the operation's last error. -/
inductive RetryOutcome
  | success
  | cancelled
  | opError (e : String)
deriving DecidableEq, Repr

/-- Observable trace of a `RetryWithBackoff` run: the outcome, the number
of invocations of the operation, the number of cancellation
checkpoints executed (the non-blocking check after a failed attempt
and the interruptible backoff wait, in execution order), and the list
of backoff durations actually waited. -/
structure RetryTrace where
  outcome : RetryOutcome
  attempts : Nat
  checkpoints : Nat
  waits : List Nat
deriving DecidableEq, Repr

/-- Whether the cancellation signal has fired by checkpoint `k`: the
context is cancelled from checkpoint `doneAt` onwards (cancellation is
monotone: once fired, it stays fired). -/
def firedAt (doneAt : Option Nat) (k : Nat) : Bool :=
  match doneAt with
  | some j => j ≤ k
  | none => false

/-- The loop of `RetryWithBackoff` (ratelimit.go lines 172-209).
`op` gives each attempt's result (`none` = success).  Arguments:
current attempt index, next checkpoint index, current backoff,
remaining further attempts (`cfg.MaxRetries - attempt`).  Each
iteration invokes the operation; on success it returns immediately;
on failure it checks cancellation, breaks with the last error after
the final attempt, otherwise performs the interruptible backoff wait
and retries with the updated backoff. -/
def retryGo (cfg : RetryConfig) (op : Nat → Option String) (doneAt : Option Nat) :
    Nat → Nat → Nat → Nat → RetryTrace
  | attempt, cp, b, remaining =>
    match op attempt with
    | none => ⟨.success, attempt + 1, cp, []⟩
    | some e =>
      if firedAt doneAt cp then ⟨.cancelled, attempt + 1, cp + 1, []⟩
      else
        match remaining with
        | 0 => ⟨.opError e, attempt + 1, cp + 1, []⟩
        | r + 1 =>
          if firedAt doneAt (cp + 1) then ⟨.cancelled, attempt + 1, cp + 2, []⟩
          else
            let rest := retryGo cfg op doneAt (attempt + 1) (cp + 2) (nextBackoff cfg b) r
            ⟨rest.outcome, rest.attempts, rest.checkpoints, b :: rest.waits⟩

/-- RetryWithBackoff from pkg/ratelimit/ratelimit.go: run the operation
with bounded exponential backoff, respecting cancellation. -/
def RetryWithBackoff (cfg : RetryConfig) (op : Nat → Option String) (doneAt : Option Nat) :
    RetryTrace :=
  retryGo cfg op doneAt 0 0 cfg.InitialBackoff cfg.MaxRetries

/-- The rate-limiter-gating property over a `pushChunk` trace, as the
specification states it: every remote call in the trace is preceded by
a rate-limiter acquisition. -/
def RateLimiterGated (tr : List RemoteCall) : Prop :=
  ∀ i, ∀ h : i < tr.length, tr.get ⟨i, h⟩ ≠ .acquireGate →
    ∃ j, ∃ hj : j < tr.length, j < i ∧ tr.get ⟨j, hj⟩ = .acquireGate

/-- Capacity property of one planned chunk: within both limits, or a
single file that alone exceeds the byte ceiling. -/
def GoodChunk (cs mb : Nat) (c : List FileEntry) : Prop :=
  (c.length ≤ cs ∧ chunkBytes c ≤ mb) ∨ ∃ f, c = [f] ∧ mb < f.Content.length

/-- The path carried by a well-shaped raw entry: present iff the entry is
an object with a non-empty string path and a string content. -/
def rawPath : RawFile → Option String
  | .notObject => none
  | .obj none _ => none
  | .obj (some _) none => none
  | .obj (some p) (some _) => if p = "" then none else some p

/-- Whether a raw entry is well-shaped (would pass the per-entry shape
checks of `ValidateFiles`). -/
def isWellShaped (r : RawFile) : Bool :=
  (rawPath r).isSome

/-- The indices (counting from `i`) at which a path occurs among the raw
entries. -/
def occIdx (p : String) : List RawFile → Nat → List Nat
  | [], _ => []
  | r :: rest, i =>
    (if rawPath r = some p then [i] else []) ++ occIdx p rest (i + 1)

/-- A remote client on which every operation succeeds with fixed
payloads; used to evaluate `pushChunk` runs on concrete inputs. -/
def exClient : GitClient :=
  { getRef := fun _ => .ok ⟨"refs/heads/main", "baseRefSHA"⟩
    getCommit := fun _ => .ok ⟨"baseCommitSHA", "baseTreeSHA"⟩
    createTree := fun _ _ => .ok ("newTreeSHA")
    createCommit := fun _ _ _ => .ok ("newCommitSHA")
    updateRef := fun _ _ _ => .ok ("refs/heads/main") }

/-- A two-file batch used to exercise the planner on concrete input. -/
def exFiles : List FileEntry := [⟨"a", [0]⟩, ⟨"b", [1]⟩]

/-- A retry configuration with backoff factor 1/2 (smaller than one):
3 retries, initial backoff 4, maximum backoff 100. -/
def cexCfgHalf : RetryConfig := ⟨2, 4, 100, 1 / 2⟩

/-- A retry configuration whose initial backoff exceeds its maximum
backoff: factor 2, initial backoff 50, maximum backoff 10. -/
def cexCfgHighInit : RetryConfig := ⟨2, 50, 10, 2⟩

/-- An operation that fails on every attempt. -/
def alwaysFail : Nat → Option String := fun _ => some ("boom")

/-- A batch with two oversized files where the first-scanned oversized
file (`a`, 26214401 bytes) is not the largest (`b`, 27262976 bytes). -/
def c4batch : List RawFile :=
  [.obj (some ("a")) (some (List.replicate 26214401 0)),
   .obj (some ("b")) (some (List.replicate 27262976 0))]

/-- The duplicate-path scenario of the specification: path `a.txt` at
indices 0 and 2. -/
def c5scenario : List RawFile :=
  [.obj (some ("a.txt")) (some [1]),
   .obj (some ("b.txt")) (some [2]),
   .obj (some ("a.txt")) (some [3])]

theorem planGo_flatten (cs mb : Nat) (fs : List FileEntry) :
    ∀ (chunks : List (List FileEntry)) (cur : List FileEntry) (s c : Nat),
    (planGo cs mb fs chunks cur s c).flatten = chunks.flatten ++ cur ++ fs := by
  induction fs with
  | nil =>
    intro chunks cur s c
    simp only [planGo]
    split <;> simp_all
  | cons f rest ih =>
    intro chunks cur s c
    simp only [planGo]
    split
    · rw [ih]; simp
    · rw [ih]; simp

theorem planGo_ne_nil (cs mb : Nat) (fs : List FileEntry) :
    ∀ (chunks : List (List FileEntry)) (cur : List FileEntry) (s c : Nat),
    (∀ ch ∈ chunks, ch ≠ []) →
    ∀ ch ∈ planGo cs mb fs chunks cur s c, ch ≠ [] := by
  induction fs with
  | nil =>
    intro chunks cur s c hch
    simp only [planGo]
    split
    · exact hch
    · intro ch hmem
      rcases List.mem_append.mp hmem with h | h
      · exact hch ch h
      · simp only [List.mem_singleton] at h
        subst h
        assumption
  | cons f rest ih =>
    intro chunks cur s c hch
    simp only [planGo]
    split
    · rename_i hguard
      apply ih
      intro ch hmem
      rcases List.mem_append.mp hmem with h | h
      · exact hch ch h
      · simp only [List.mem_singleton] at h
        subst h
        exact hguard.1
    · apply ih
      exact hch

theorem chunkBytes_append (a b : List FileEntry) :
    chunkBytes (a ++ b) = chunkBytes a + chunkBytes b := by
  induction a with
  | nil => simp [chunkBytes]
  | cons f fs ih => simp [chunkBytes, ih]; omega

theorem goodChunk_single (cs mb : Nat) (hcs : 1 ≤ cs) (f : FileEntry) :
    GoodChunk cs mb [f] := by
  by_cases h : f.Content.length ≤ mb
  · exact Or.inl ⟨by simpa using hcs, by simpa [chunkBytes] using h⟩
  · exact Or.inr ⟨f, rfl, by omega⟩

theorem planGo_good (cs mb : Nat) (hcs : 1 ≤ cs) (fs : List FileEntry) :
    ∀ (chunks : List (List FileEntry)) (cur : List FileEntry) (s c : Nat),
    (∀ ch ∈ chunks, GoodChunk cs mb ch) →
    s = chunkBytes cur → c = cur.length →
    (cur = [] ∨ GoodChunk cs mb cur) →
    ∀ ch ∈ planGo cs mb fs chunks cur s c, GoodChunk cs mb ch := by
  induction fs with
  | nil =>
    intro chunks cur s c hch hs hc hcur
    simp only [planGo]
    split
    · exact hch
    · rename_i hne
      intro ch hmem
      rcases List.mem_append.mp hmem with h | h
      · exact hch ch h
      · simp only [List.mem_singleton] at h
        subst h
        rcases hcur with h | h
        · exact absurd h hne
        · exact h
  | cons f rest ih =>
    intro chunks cur s c hch hs hc hcur
    simp only [planGo]
    split
    · rename_i hguard
      apply ih
      · intro ch hmem
        rcases List.mem_append.mp hmem with h | h
        · exact hch ch h
        · simp only [List.mem_singleton] at h
          subst h
          rcases hcur with h | h
          · exact absurd h hguard.1
          · exact h
      · simp [chunkBytes]
      · simp
      · exact Or.inr (goodChunk_single cs mb hcs f)
    · rename_i hguard
      rw [not_and_or, not_or] at hguard
      apply ih
      · exact hch
      · rw [chunkBytes_append, hs]; simp [chunkBytes]
      · simp [hc]
      · rcases hguard with hnil | ⟨hsz, hcnt⟩
        · simp only [ne_eq, not_not] at hnil
          subst hnil
          exact Or.inr (goodChunk_single cs mb hcs f)
        · rcases hcur with h | h
          · subst h
            exact Or.inr (goodChunk_single cs mb hcs f)
          · refine Or.inr (Or.inl ⟨?_, ?_⟩)
            · simp only [List.length_append, List.length_singleton]
              omega
            · rw [chunkBytes_append]
              simp only [chunkBytes] at *
              omega

theorem GetMaxChunkSize_eq : GetMaxChunkSize = 83886080 := by
  rw [GetMaxChunkSize, MaxTotalPushSizeBytes, ChunkSafetyMarginPercent]
  norm_num
  rfl

theorem planChunks_ex :
    planChunks exFiles 1 GetMaxChunkSize = [[⟨"a", [0]⟩], [⟨"b", [1]⟩]] := by
  rw [planChunks, GetMaxChunkSize_eq]
  rfl

/-- C1: Chunk coverage — for every validated file list and every
chunk-size / byte-ceiling parameter pair, the concatenation of the
planned chunks, in chunk order, is exactly the original file list (no
file dropped, reordered or duplicated), and every planned chunk is
non-empty, so each file belongs to exactly one chunk. -/
theorem claim_C1 (files : List FileEntry) (cs mb : Nat) :
    (planChunks files cs mb).flatten = files ∧
    ∀ c ∈ planChunks files cs mb, c ≠ [] := by
  constructor
  · rw [planChunks, planGo_flatten]
    simp
  · rw [planChunks]
    exact planGo_ne_nil cs mb files [] [] 0 0 (by simp)

theorem claim_C1_witness :
    (planChunks exFiles 1 GetMaxChunkSize).flatten = exFiles ∧
    ([⟨"a", [0]⟩] : List FileEntry) ≠ [] := by
  refine ⟨(claim_C1 exFiles 1 GetMaxChunkSize).1, ?_⟩
  apply (claim_C1 exFiles 1 GetMaxChunkSize).2
  rw [planChunks_ex]
  simp

/-- C2: Chunk capacity — with any per-chunk file-count limit of at least
one (the handler clamps the limit into that range) and the
`GetMaxChunkSize` byte ceiling, every planned chunk has file count
within the limit, and its cumulative byte size is within the ceiling
unless it is a single file that alone exceeds the ceiling. -/
theorem claim_C2 (files : List FileEntry) (cs : Nat) (hcs : 1 ≤ cs)
    (c : List FileEntry) (hc : c ∈ planChunks files cs GetMaxChunkSize) :
    c.length ≤ cs ∧
    (chunkBytes c ≤ GetMaxChunkSize ∨
      ∃ f, c = [f] ∧ GetMaxChunkSize < f.Content.length) := by
  have hgood : GoodChunk cs GetMaxChunkSize c := by
    rw [planChunks] at hc
    exact planGo_good cs GetMaxChunkSize hcs files [] [] 0 0 (by simp) rfl rfl (Or.inl rfl) c hc
  rcases hgood with ⟨hlen, hbytes⟩ | ⟨f, hceq, hover⟩
  · exact ⟨hlen, Or.inl hbytes⟩
  · subst hceq
    exact ⟨by simpa using hcs, Or.inr ⟨f, rfl, hover⟩⟩

theorem claim_C2_witness :
    1 ≤ 1 ∧
    ([⟨"a", [0]⟩] : List FileEntry).length ≤ 1 ∧
    (chunkBytes [⟨"a", [0]⟩] ≤ GetMaxChunkSize ∨
      ∃ f, ([⟨"a", [0]⟩] : List FileEntry) = [f] ∧ GetMaxChunkSize < f.Content.length) := by
  refine ⟨by decide, ?_⟩
  apply claim_C2 exFiles 1 (by decide) [⟨"a", [0]⟩]
  rw [planChunks_ex]
  simp


theorem processChunksGo_acct (push : Nat → List FileEntry → String → Except String String)
    (cont : Bool) (msg : String) (rest : List (List FileEntry)) :
    ∀ (idx : Nat) (acc : PushFilesChunkedResult),
    acc.SuccessfulChunks + acc.FailedChunks = acc.Chunks.length →
    acc.TotalChunks = acc.Chunks.length + rest.length →
    (processChunksGo push cont msg rest idx acc).1.SuccessfulChunks +
        (processChunksGo push cont msg rest idx acc).1.FailedChunks =
        (processChunksGo push cont msg rest idx acc).1.Chunks.length ∧
    (processChunksGo push cont msg rest idx acc).1.Chunks.length =
        acc.Chunks.length + (processChunksGo push cont msg rest idx acc).2 ∧
    ((processChunksGo push cont msg rest idx acc).1.FullySuccessful = true ↔
        (processChunksGo push cont msg rest idx acc).1.FailedChunks = 0) ∧
    (processChunksGo push cont msg rest idx acc).1.TotalChunks = acc.TotalChunks ∧
    (processChunksGo push cont msg rest idx acc).1.Chunks.length ≤ acc.TotalChunks := by
  induction rest with
  | nil =>
    intro idx acc hacct htot
    simp only [processChunksGo]
    simp only [List.length_nil, Nat.add_zero] at htot
    refine ⟨hacct, ?_, ?_, ?_, ?_⟩ <;> simp_all
  | cons c rest ih =>
    intro idx acc hacct htot
    simp only [List.length_cons] at htot
    rcases hp : push idx c (chunkMessage msg idx acc.TotalChunks) with e | sha
    · cases cont with
      | false =>
        simp only [processChunksGo, hp]
        try simp only [Bool.not_false, if_pos]
        exact ⟨by simp; omega, by simp, by simp, by simp, by simp; omega⟩
      | true =>
        have hrec := ih (idx + 1)
          { acc with
              FailedChunks := acc.FailedChunks + 1
              Chunks := acc.Chunks ++
                [{ ChunkIndex := idx + 1, FilesInChunk := c.length, CommitSHA := "",
                   Success := false, Error := e, Files := c.map (·.Path) }] }
          (by simp; omega) (by simp; omega)
        simp only [processChunksGo, hp, Bool.not_true] at hrec ⊢
        try simp only [Bool.false_eq_true, if_false] at hrec ⊢
        refine ⟨hrec.1, ?_, hrec.2.2.1, ?_, ?_⟩
        · rw [hrec.2.1]; simp; omega
        · rw [hrec.2.2.2.1]
        · have h5 := hrec.2.2.2.2
          have h4 := hrec.2.2.2.1
          simp at h5
          exact h5
    · have hrec := ih (idx + 1)
        { acc with
            SuccessfulChunks := acc.SuccessfulChunks + 1
            FinalCommitSHA := sha
            Chunks := acc.Chunks ++
              [{ ChunkIndex := idx + 1, FilesInChunk := c.length, CommitSHA := sha,
                 Success := true, Error := "", Files := c.map (·.Path) }] }
        (by simp; omega) (by simp; omega)
      simp only [processChunksGo, hp] at hrec ⊢
      refine ⟨hrec.1, ?_, hrec.2.2.1, ?_, ?_⟩
      · rw [hrec.2.1]; simp; omega
      · rw [hrec.2.2.2.1]
      · have h5 := hrec.2.2.2.2
        simp at h5
        exact h5

/-- C3: Outcome accounting — for every chunked-push run (any chunk-commit
oracle, any continue-on-error setting), SuccessfulChunks plus
FailedChunks equals the number of recorded chunk outcomes, the number
of recorded outcomes equals the number of attempted chunks (the
`pushChunk` invocations performed, which can be fewer than TotalChunks
on an early abort without continue_on_error), and FullySuccessful
holds iff FailedChunks is zero. -/
theorem claim_C3 (push : Nat → List FileEntry → String → Except String String)
    (cont : Bool) (msg : String) (files : List FileEntry)
    (chunks : List (List FileEntry)) :
    (PushFilesChunkedRun push cont msg files chunks).1.SuccessfulChunks +
        (PushFilesChunkedRun push cont msg files chunks).1.FailedChunks =
        (PushFilesChunkedRun push cont msg files chunks).1.Chunks.length ∧
    (PushFilesChunkedRun push cont msg files chunks).1.Chunks.length =
        (PushFilesChunkedRun push cont msg files chunks).2 ∧
    ((PushFilesChunkedRun push cont msg files chunks).1.FullySuccessful = true ↔
        (PushFilesChunkedRun push cont msg files chunks).1.FailedChunks = 0) ∧
    (PushFilesChunkedRun push cont msg files chunks).1.Chunks.length ≤
        (PushFilesChunkedRun push cont msg files chunks).1.TotalChunks ∧
    (PushFilesChunkedRun push cont msg files chunks).1.TotalChunks = chunks.length := by
  have h := processChunksGo_acct push cont msg chunks 0
    { TotalFiles := files.length, TotalChunks := chunks.length, SuccessfulChunks := 0,
      FailedChunks := 0, FinalCommitSHA := "", Chunks := [], FullySuccessful := false }
    (by simp) (by simp)
  rw [PushFilesChunkedRun]
  refine ⟨h.1, by simpa using h.2.1, h.2.2.1, ?_, by simpa using h.2.2.2.1⟩
  have h5 := h.2.2.2.2
  have h4 := h.2.2.2.1
  simp only at h5 h4
  omega

/-- C10: chunk_size clamping — for any positive `MaxChunkSize` constant,
an out-of-range requested chunk_size is silently clamped, never
rejected: values above the maximum become the maximum, values below 1
become 1, in-range values are kept, and the effective limit always
lies in [1, MaxChunkSize]. -/
theorem claim_C10 (maxChunkSize requested : Int) (hM : 1 ≤ maxChunkSize) :
    1 ≤ clampChunkSize maxChunkSize requested ∧
    clampChunkSize maxChunkSize requested ≤ maxChunkSize ∧
    (maxChunkSize < requested → clampChunkSize maxChunkSize requested = maxChunkSize) ∧
    (requested < 1 → clampChunkSize maxChunkSize requested = 1) ∧
    (1 ≤ requested → requested ≤ maxChunkSize →
      clampChunkSize maxChunkSize requested = requested) := by
  rw [clampChunkSize]
  split_ifs <;> refine ⟨by omega, by omega, ?_, ?_, ?_⟩ <;> intros <;> omega

theorem claim_C10_witness :
    clampChunkSize 100 250 = 100 ∧ clampChunkSize 100 (-5) = 1 ∧
    clampChunkSize 100 42 = 42 := by
  refine ⟨?_, ?_, ?_⟩
  · exact (claim_C10 100 250 (by decide)).2.2.1 (by decide)
  · exact (claim_C10 100 (-5) (by decide)).2.2.2.1 (by decide)
  · exact (claim_C10 100 42 (by decide)).2.2.2.2 (by decide) (by decide)

/-- C8: At-limit chunk size is allowed — `ValidateChunkSize` accepts a
chunk iff its cumulative content byte size is at most
`MaxTotalPushSizeBytes` (so exactly the limit passes and limit + 1
fails), a failing chunk yields the `CHUNK_TOO_LARGE` error carrying
the chunk byte count and file count, and `pushChunk` performs this
check first: when it fails, no remote call is issued. -/
theorem claim_C8 (files : List FileEntry) :
    (ValidateChunkSize files = none ↔ chunkBytes files ≤ MaxTotalPushSizeBytes) ∧
    (MaxTotalPushSizeBytes < chunkBytes files →
      ValidateChunkSize files =
        some (.chunkTooLarge (chunkBytes files) MaxTotalPushSizeBytes files.length)) ∧
    (∀ client branch message, ValidateChunkSize files ≠ none →
      (pushChunk client branch message files).2 = []) := by
  refine ⟨?_, ?_, ?_⟩
  · rw [ValidateChunkSize]
    split <;> rename_i h
    · simp only [reduceCtorEq, false_iff]
      omega
    · simp only [true_iff]
      omega
  · intro h
    rw [ValidateChunkSize, if_pos h]
  · intro client branch message hne
    rcases hv : ValidateChunkSize files with _ | e
    · exact absurd hv hne
    · simp only [pushChunk, hv]

theorem chunkBytes_single (p : String) (c : List Nat) :
    chunkBytes [⟨p, c⟩] = c.length := by
  simp only [chunkBytes, Nat.add_zero]

theorem claim_C8_witness :
    ValidateChunkSize [⟨"atLimit", List.replicate MaxTotalPushSizeBytes 0⟩] = none ∧
    ValidateChunkSize [⟨"over", List.replicate (MaxTotalPushSizeBytes + 1) 0⟩] =
      some (.chunkTooLarge (MaxTotalPushSizeBytes + 1) MaxTotalPushSizeBytes 1) ∧
    (pushChunk exClient ("main") ("msg")
        [⟨"over", List.replicate (MaxTotalPushSizeBytes + 1) 0⟩]).2 = [] := by
  have hb0 : chunkBytes [(⟨"atLimit", List.replicate MaxTotalPushSizeBytes 0⟩ : FileEntry)] =
      MaxTotalPushSizeBytes := by
    rw [chunkBytes_single, List.length_replicate]
  have hb1 : chunkBytes [(⟨"over", List.replicate (MaxTotalPushSizeBytes + 1) 0⟩ : FileEntry)] =
      MaxTotalPushSizeBytes + 1 := by
    rw [chunkBytes_single, List.length_replicate]
  have h2 := (claim_C8 [⟨"over", List.replicate (MaxTotalPushSizeBytes + 1) 0⟩]).2.1
    (by rw [hb1]; omega)
  rw [hb1] at h2
  simp only [List.length_cons, List.length_nil, Nat.zero_add] at h2
  refine ⟨?_, ?_, ?_⟩
  · exact (claim_C8 _).1.mpr (le_of_eq hb0)
  · exact h2
  · refine (claim_C8 _).2.2 exClient ("main") ("msg") ?_
    rw [h2]
    exact Option.some_ne_none _

/-- C9 counterexample: on a concrete one-file chunk against a concrete
all-success client, `pushChunk` issues its first remote call (the
branch-ref lookup) with no rate-limiter acquisition anywhere before
it, so the trace is not rate-limiter gated. -/
theorem claim_C9_counterexample :
    ¬ RateLimiterGated (pushChunk exClient ("main") ("msg") [⟨"a", [0]⟩]).2 := by
  have htr : (pushChunk exClient ("main") ("msg") [⟨"a", [0]⟩]).2 =
      [.getRef, .getCommit, .createTree, .createCommit, .updateRef] := rfl
  rw [htr]
  intro h
  obtain ⟨j, hj, hlt, _⟩ := h 0 (by decide) (by decide)
  omega

/-- C9 (amended): the commit pipeline issues its remote calls directly on
the client without acquiring from the rate limiter — for every client,
branch, message and chunk, the `pushChunk` trace contains no
rate-limiter acquisition event. -/
theorem claim_C9_amended (client : GitClient) (branch message : String)
    (files : List FileEntry) :
    ((pushChunk client branch message files).2).count RemoteCall.acquireGate = 0 := by
  rw [pushChunk]
  repeat' first
    | split
    | (dsimp only
       split)
  all_goals rfl

theorem nextBackoff_bounds (cfg : RetryConfig) (hf : 1 ≤ cfg.BackoffFactor) (b : Nat)
    (hbM : b ≤ cfg.MaxBackoff) :
    b ≤ nextBackoff cfg b ∧ nextBackoff cfg b ≤ cfg.MaxBackoff := by
  have h1 : (b : ℚ) * 1 ≤ (b : ℚ) * cfg.BackoffFactor :=
    mul_le_mul_of_nonneg_left hf (by positivity)
  have h2 : (b : ℤ) ≤ ⌊(b : ℚ) * cfg.BackoffFactor⌋ := by
    calc (b : ℤ) = ⌊((b : Nat) : ℚ)⌋ := (Int.floor_natCast b).symm
    _ ≤ ⌊(b : ℚ) * cfg.BackoffFactor⌋ := Int.floor_le_floor (by simpa using h1)
  rw [nextBackoff]
  split <;> omega

theorem retryGo_attempts (cfg : RetryConfig) (op : Nat → Option String) (doneAt : Option Nat) :
    ∀ (remaining attempt cp b : Nat),
    (retryGo cfg op doneAt attempt cp b remaining).attempts ≤ attempt + remaining + 1 := by
  intro remaining
  induction remaining with
  | zero =>
    intro attempt cp b
    rw [retryGo]
    rcases op attempt with _ | e
    · simp
    · dsimp only
      split <;> simp
  | succ r ih =>
    intro attempt cp b
    rw [retryGo]
    rcases op attempt with _ | e
    · simp
    · dsimp only
      split
      · simp
      · split
        · simp
        · dsimp only
          have := ih (attempt + 1) (cp + 2) (nextBackoff cfg b)
          omega

theorem retryGo_waits_mono (cfg : RetryConfig) (op : Nat → Option String) (doneAt : Option Nat)
    (hf : 1 ≤ cfg.BackoffFactor) :
    ∀ (remaining attempt cp b : Nat), b ≤ cfg.MaxBackoff →
    List.Chain' (· ≤ ·) ((retryGo cfg op doneAt attempt cp b remaining).waits) ∧
    ∀ x ∈ (retryGo cfg op doneAt attempt cp b remaining).waits, b ≤ x := by
  intro remaining
  induction remaining with
  | zero =>
    intro attempt cp b hb
    rw [retryGo]
    rcases op attempt with _ | e
    · simp
    · dsimp only
      split <;> simp
  | succ r ih =>
    intro attempt cp b hb
    rw [retryGo]
    rcases op attempt with _ | e
    · simp
    · dsimp only
      split
      · simp
      · split
        · simp
        · dsimp only
          obtain ⟨hnb1, hnb2⟩ := nextBackoff_bounds cfg hf b hb
          obtain ⟨hchain, hall⟩ := ih (attempt + 1) (cp + 2) (nextBackoff cfg b) hnb2
          constructor
          · rw [List.chain'_cons']
            refine ⟨?_, hchain⟩
            intro y hy
            have hy' : y ∈ (retryGo cfg op doneAt (attempt + 1) (cp + 2)
                (nextBackoff cfg b) r).waits := List.mem_of_mem_head? hy
            exact le_trans hnb1 (hall y hy')
          · intro x hx
            rcases List.mem_cons.mp hx with h | h
            · omega
            · exact le_trans hnb1 (hall x h)

theorem retryGo_not_cancelled (cfg : RetryConfig) (op : Nat → Option String)
    (doneAt : Option Nat) :
    ∀ (remaining attempt cp b : Nat),
    (∀ j, doneAt = some j → cp ≤ j) →
    (retryGo cfg op doneAt attempt cp b remaining).outcome ≠ .cancelled →
    ∀ j, doneAt = some j → (retryGo cfg op doneAt attempt cp b remaining).checkpoints ≤ j := by
  intro remaining
  induction remaining with
  | zero =>
    intro attempt cp b hprior hnc j hdone
    rw [retryGo] at hnc ⊢
    rcases hop : op attempt with _ | e <;> simp only [hop] at hnc ⊢
    · exact hprior j hdone
    · subst hdone
      rcases hfc : firedAt (some j) cp with _ | _ <;> simp only [hfc] at hnc ⊢
      · simp only [firedAt, decide_eq_false_iff_not] at hfc
        simp only [Bool.false_eq_true, if_false]
        omega
      · simp at hnc
  | succ r ih =>
    intro attempt cp b hprior hnc j hdone
    rw [retryGo] at hnc ⊢
    rcases hop : op attempt with _ | e <;> simp only [hop] at hnc ⊢
    · exact hprior j hdone
    · subst hdone
      rcases hfc : firedAt (some j) cp with _ | _ <;> simp only [hfc] at hnc ⊢
      · simp only [firedAt, decide_eq_false_iff_not] at hfc
        rcases hfc2 : firedAt (some j) (cp + 1) with _ | _ <;>
          simp only [hfc2] at hnc ⊢
        · simp only [firedAt, decide_eq_false_iff_not] at hfc2
          simp only [Bool.false_eq_true, if_false] at hnc ⊢
          exact ih (attempt + 1) (cp + 2) (nextBackoff cfg b)
            (fun j' hj' => by cases hj'; omega) hnc j rfl
        · simp at hnc
      · simp at hnc

theorem nbHalf4 : nextBackoff cexCfgHalf 4 = 2 := by
  rw [nextBackoff]
  simp only [cexCfgHalf]
  norm_num
  rfl

theorem nbHighInit50 : nextBackoff cexCfgHighInit 50 = 10 := by
  rw [nextBackoff]
  simp only [cexCfgHighInit]
  norm_num

theorem cexHalf_waits : (RetryWithBackoff cexCfgHalf alwaysFail none).waits = [4, 2] := by
  rw [RetryWithBackoff]
  show (retryGo cexCfgHalf alwaysFail none 0 0 4 2).waits = [4, 2]
  rw [retryGo]
  simp only [alwaysFail, firedAt]
  rw [retryGo]
  simp only [alwaysFail, firedAt]
  rw [retryGo]
  simp only [alwaysFail, firedAt]
  simp [nbHalf4]

theorem cexHighInit_waits :
    (RetryWithBackoff cexCfgHighInit alwaysFail none).waits = [50, 10] := by
  rw [RetryWithBackoff]
  show (retryGo cexCfgHighInit alwaysFail none 0 0 50 2).waits = [50, 10]
  rw [retryGo]
  simp only [alwaysFail, firedAt]
  rw [retryGo]
  simp only [alwaysFail, firedAt]
  rw [retryGo]
  simp only [alwaysFail, firedAt]
  simp [nbHighInit50]

/-- C6 counterexample: the monotone-backoff part of the claim fails for
retry configurations in general — with backoff factor 1/2 the waits
decrease (4 then 2), and with initial backoff 50 above the maximum 10
the waits also decrease (50 then 10). -/
theorem claim_C6_counterexample :
    (RetryWithBackoff cexCfgHalf alwaysFail none).waits = [4, 2] ∧
    ¬ List.Chain' (· ≤ ·) ((RetryWithBackoff cexCfgHalf alwaysFail none).waits) ∧
    (RetryWithBackoff cexCfgHighInit alwaysFail none).waits = [50, 10] ∧
    ¬ List.Chain' (· ≤ ·) ((RetryWithBackoff cexCfgHighInit alwaysFail none).waits) := by
  refine ⟨cexHalf_waits, ?_, cexHighInit_waits, ?_⟩
  · rw [cexHalf_waits]
    intro h
    have h1 := (List.chain'_cons.mp h).1
    omega
  · rw [cexHighInit_waits]
    intro h
    have h1 := (List.chain'_cons.mp h).1
    omega

/-- C6 (amended): for every retry configuration and operation,
`RetryWithBackoff` invokes the operation at most MaxRetries + 1 times;
and provided the backoff factor is at least 1 and the initial backoff
does not exceed the maximum backoff, the successive backoff wait
durations are nondecreasing (the backoff is multiplied by the factor
after each waited retry and capped at MaxBackoff). -/
theorem claim_C6 (cfg : RetryConfig) (op : Nat → Option String) (doneAt : Option Nat) :
    (RetryWithBackoff cfg op doneAt).attempts ≤ cfg.MaxRetries + 1 ∧
    (1 ≤ cfg.BackoffFactor → cfg.InitialBackoff ≤ cfg.MaxBackoff →
      List.Chain' (· ≤ ·) ((RetryWithBackoff cfg op doneAt).waits)) := by
  constructor
  · have := retryGo_attempts cfg op doneAt cfg.MaxRetries 0 0 cfg.InitialBackoff
    rw [RetryWithBackoff]
    omega
  · intro hf hIM
    rw [RetryWithBackoff]
    exact (retryGo_waits_mono cfg op doneAt hf cfg.MaxRetries 0 0 cfg.InitialBackoff hIM).1

/-- C7: Cancellation priority — for every operation, retry configuration
and cancellation time, if the cancellation signal had fired by some
checkpoint the run executed (the post-failure check or the
interruptible backoff wait), `RetryWithBackoff` returns the
cancellation error, never the operation's own error. -/
theorem claim_C7 (cfg : RetryConfig) (op : Nat → Option String) (doneAt : Option Nat)
    (j : Nat) (hdone : doneAt = some j)
    (hj : j < (RetryWithBackoff cfg op doneAt).checkpoints) :
    (RetryWithBackoff cfg op doneAt).outcome = .cancelled := by
  by_contra hne
  have := retryGo_not_cancelled cfg op doneAt cfg.MaxRetries 0 0 cfg.InitialBackoff
    (fun j' _ => Nat.zero_le j') (by rw [RetryWithBackoff] at hne; exact hne) j hdone
  rw [RetryWithBackoff] at hj
  omega

theorem claim_C7_witness :
    (RetryWithBackoff ⟨1, 1, 10, 2⟩ alwaysFail (some 0)).outcome = .cancelled := by
  refine claim_C7 ⟨1, 1, 10, 2⟩ alwaysFail (some 0) 0 rfl ?_
  decide

theorem claim_C6_witness :
    (RetryWithBackoff ⟨3, 1000, 30000, 2⟩ alwaysFail none).attempts ≤ 3 + 1 ∧
    List.Chain' (· ≤ ·) ((RetryWithBackoff ⟨3, 1000, 30000, 2⟩ alwaysFail none).waits) := by
  have h := claim_C6 ⟨3, 1000, 30000, 2⟩ alwaysFail none
  exact ⟨h.1, h.2 (show (1 : ℚ) ≤ 2 by norm_num) (by norm_num)⟩

theorem validateFiles_two (pa pb : String) (ca cb : List Nat)
    (hpa : ¬(pa = "")) (hpb : ¬(pb = "")) (hne : ¬(pa = pb))
    (h0a : 0 < ca.length) (hab : ca.length < cb.length)
    (hMa : MaxFileSizeBytes < ca.length) (hMb : MaxFileSizeBytes < cb.length) :
    ValidateFiles [.obj (some pa) (some ca), .obj (some pb) (some cb)] =
      .ok (⟨ca.length + cb.length, 2, pb, cb.length, [], [pa, pb]⟩,
           [⟨pa, ca⟩, ⟨pb, cb⟩]) := by
  simp [ValidateFiles, vfGo, stepState, alookup, aupsert, hpa, hpb, hne, h0a, hab, hMa, hMb]

/-- C4: evaluation at the failing input — for the batch with oversized
files `a` (26214401 bytes) and `b` (27262976 bytes), validation
records both as oversized with largest size 27262976, and the
oversized-file check then produces a FILE_TOO_LARGE error naming `a`
but reporting 27262976 bytes — the largest file's size — although
`a`'s own actual size is 26214401 bytes: the handler passes
`validationResult.LargestFileSize` to `ValidateFileSize` for every
oversized path instead of that file's own size. -/
theorem claim_C4 :
    ∃ vr entries,
      ValidateFiles c4batch = .ok (vr, entries) ∧
      vr.OversizedFiles = ["a", "b"] ∧
      vr.LargestFileSize = 27262976 ∧
      checkOversizedFiles vr = some (.fileTooLarge ("a") 27262976 MaxFileSizeBytes) ∧
      (∃ ca, entries.head? = some ⟨"a", ca⟩ ∧ ca.length = 26214401) ∧
      (27262976 : Nat) ≠ 26214401 := by
  have hla : (List.replicate 26214401 (0 : Nat)).length = 26214401 :=
    List.length_replicate 26214401 0
  have hlb : (List.replicate 27262976 (0 : Nat)).length = 27262976 :=
    List.length_replicate 27262976 0
  have hM : MaxFileSizeBytes = 26214400 := rfl
  have h := validateFiles_two ("a") ("b")
    (List.replicate 26214401 0) (List.replicate 27262976 0)
    (by decide) (by decide) (by decide)
    (by rw [hla]; norm_num) (by rw [hla, hlb]; norm_num)
    (by rw [hla, hM]; norm_num) (by rw [hlb, hM]; norm_num)
  rw [hla, hlb] at h
  refine ⟨_, _, h, rfl, rfl, ?_, ⟨List.replicate 26214401 0, rfl, hla⟩, by norm_num⟩
  have hMlt : MaxFileSizeBytes < 27262976 := by rw [hM]; norm_num
  simp only [checkOversizedFiles, oversizedLoop, ValidateFileSize, hMlt, if_true]

theorem alookup_aupsert_self {α : Type} (p : String) (v : α) (l : List (String × α)) :
    alookup p (aupsert p v l) = some v := by
  induction l with
  | nil => simp [alookup, aupsert]
  | cons x rest ih =>
    obtain ⟨q, w⟩ := x
    rw [aupsert]
    by_cases h : q = p
    · rw [if_pos h, alookup, if_pos h]
    · rw [if_neg h, alookup, if_neg h]
      exact ih

theorem alookup_aupsert_ne {α : Type} (p q : String) (v : α) (l : List (String × α))
    (h : ¬(q = p)) : alookup q (aupsert p v l) = alookup q l := by
  induction l with
  | nil =>
    simp only [aupsert, alookup]
    rw [if_neg (fun hpq => h hpq.symm)]
  | cons x rest ih =>
    obtain ⟨s, w⟩ := x
    rw [aupsert]
    by_cases hs : s = p
    · subst hs
      rw [if_pos rfl, alookup, alookup]
      by_cases hsq : s = q
      · exact absurd hsq.symm h
      · rw [if_neg hsq, if_neg hsq]
    · rw [if_neg hs, alookup, alookup]
      by_cases hsq : s = q
      · rw [if_pos hsq, if_pos hsq]
      · rw [if_neg hsq, if_neg hsq]
        exact ih

theorem mem_aupsert {α : Type} (p : String) (v : α) (l : List (String × α))
    (x : String × α) (hx : x ∈ aupsert p v l) : x ∈ l ∨ x.1 = p := by
  induction l with
  | nil =>
    simp only [aupsert, List.mem_singleton] at hx
    right
    rw [hx]
  | cons y ys ih =>
    obtain ⟨a, b⟩ := y
    rw [aupsert] at hx
    by_cases ha : a = p
    · rw [if_pos ha] at hx
      rcases List.mem_cons.mp hx with h1 | h1
      · right
        rw [h1, ha]
      · left
        exact List.mem_cons_of_mem _ h1
    · rw [if_neg ha] at hx
      rcases List.mem_cons.mp hx with h1 | h1
      · left
        rw [h1]
        exact List.mem_cons_self _ _
      · rcases ih h1 with h2 | h2
        · left
          exact List.mem_cons_of_mem _ h2
        · right
          exact h2

theorem aupsert_keys_nodup {α : Type} (p : String) (v : α) (l : List (String × α))
    (h : (l.map Prod.fst).Nodup) : ((aupsert p v l).map Prod.fst).Nodup := by
  induction l with
  | nil => simp [aupsert]
  | cons x rest ih =>
    obtain ⟨s, w⟩ := x
    rw [aupsert]
    simp only [List.map_cons, List.nodup_cons] at h
    by_cases hs : s = p
    · rw [if_pos hs]
      simp only [List.map_cons, List.nodup_cons]
      exact ⟨h.1, h.2⟩
    · rw [if_neg hs]
      simp only [List.map_cons, List.nodup_cons]
      refine ⟨?_, ih h.2⟩
      intro hmem
      rcases List.mem_map.mp hmem with ⟨⟨t, u⟩, htu, hts⟩
      rcases mem_aupsert p v rest (t, u) htu with h2 | h2
      · exact h.1 (hts ▸ List.mem_map.mpr ⟨(t, u), h2, rfl⟩)
      · exact hs (hts ▸ h2 ▸ rfl)

theorem mem_of_alookup {α : Type} (p : String) (v : α) (l : List (String × α))
    (h : alookup p l = some v) : (p, v) ∈ l := by
  induction l with
  | nil => simp [alookup] at h
  | cons x rest ih =>
    obtain ⟨s, w⟩ := x
    rw [alookup] at h
    by_cases hs : s = p
    · rw [if_pos hs] at h
      subst hs
      injection h with h
      subst h
      exact List.mem_cons_self _ _
    · rw [if_neg hs] at h
      exact List.mem_cons_of_mem _ (ih h)

theorem alookup_of_mem_nodup {α : Type} (p : String) (v : α) (l : List (String × α))
    (hnd : (l.map Prod.fst).Nodup) (h : (p, v) ∈ l) : alookup p l = some v := by
  induction l with
  | nil => simp at h
  | cons x rest ih =>
    obtain ⟨s, w⟩ := x
    simp only [List.map_cons, List.nodup_cons] at hnd
    rw [alookup]
    rcases List.mem_cons.mp h with h1 | h1
    · injection h1 with h1a h1b
      rw [if_pos (h1a ▸ rfl), h1b]
    · by_cases hs : s = p
      · exfalso
        apply hnd.1
        apply List.mem_map.mpr
        exact ⟨(p, v), h1, hs.symm⟩
      · rw [if_neg hs]
        exact ih hnd.2 h1

theorem occIdx_cons (p : String) (r : RawFile) (rest : List RawFile) (i : Nat) :
    occIdx p (r :: rest) i =
      (if rawPath r = some p then [i] else []) ++ occIdx p rest (i + 1) := rfl

theorem stepState_seenPaths (p : String) (c : List Nat) (i : Nat) (st : VFState) :
    (stepState p c i st).seenPaths = aupsert p i st.seenPaths := rfl

theorem stepState_Duplicates (p : String) (c : List Nat) (i : Nat) (st : VFState) :
    (stepState p c i st).res.Duplicates =
      match alookup p st.seenPaths with
      | some firstIndex =>
        let d0 :=
          match alookup p st.res.Duplicates with
          | none => aupsert p [firstIndex] st.res.Duplicates
          | some _ => st.res.Duplicates
        aupsert p (((alookup p d0).getD []) ++ [i]) d0
      | none => st.res.Duplicates := rfl

theorem vfGo_dup (rest : List RawFile) :
    ∀ (i : Nat) (st : VFState) (pastOcc : String → List Nat),
    (∀ r ∈ rest, isWellShaped r = true) →
    ((st.res.Duplicates.map Prod.fst).Nodup) →
    (∀ p, alookup p st.seenPaths = none ↔ pastOcc p = []) →
    (∀ p fi, alookup p st.seenPaths = some fi → (pastOcc p).length ≤ 1 → pastOcc p = [fi]) →
    (∀ p, alookup p st.res.Duplicates =
      if 2 ≤ (pastOcc p).length then some (pastOcc p) else none) →
    (∃ q, 2 ≤ (pastOcc q ++ occIdx q rest i).length) →
    ∃ rep repIdxs dupsF,
      vfGo rest i st = .error (.duplicateFilePaths rep repIdxs dupsF) ∧
      dupsF.head? = some (rep, repIdxs) ∧
      ((dupsF.map Prod.fst).Nodup) ∧
      ∀ p, alookup p dupsF =
        if 2 ≤ (pastOcc p ++ occIdx p rest i).length
        then some (pastOcc p ++ occIdx p rest i) else none := by
  induction rest with
  | nil =>
    intro i st pastOcc _ hnd hseen0 hseen1 hdups hdup
    obtain ⟨q, hq⟩ := hdup
    simp only [occIdx, List.append_nil] at hq
    have hlq := hdups q
    rw [if_pos hq] at hlq
    rcases hD : st.res.Duplicates with _ | ⟨⟨p0, idxs⟩, drest⟩
    · rw [hD] at hlq
      simp [alookup] at hlq
    · refine ⟨p0, idxs, st.res.Duplicates, ?_, ?_, hnd, ?_⟩
      · rw [vfGo, hD]
      · rw [hD]
        rfl
      · intro p
        have h := hdups p
        simpa only [occIdx, List.append_nil] using h
  | cons r rest ih =>
    intro i st pastOcc hws hnd hseen0 hseen1 hdups hdup
    have hw := hws r (List.mem_cons_self r rest)
    rcases r with _ | ⟨po, co⟩
    · simp [isWellShaped, rawPath] at hw
    rcases po with _ | p
    · simp [isWellShaped, rawPath] at hw
    rcases co with _ | c
    · simp [isWellShaped, rawPath] at hw
    by_cases hpe : p = ""
    · simp [isWellShaped, rawPath, hpe] at hw
    have hrp : rawPath (.obj (some p) (some c)) = some p := by
      simp [rawPath, hpe]
    have hocc : ∀ q, pastOcc q ++ occIdx q (RawFile.obj (some p) (some c) :: rest) i =
        (pastOcc q ++ if p = q then [i] else []) ++ occIdx q rest (i + 1) := by
      intro q
      rw [occIdx_cons, hrp, List.append_assoc]
      simp only [Option.some.injEq]
    have hseen0' : ∀ q, alookup q (stepState p c i st).seenPaths = none ↔
        (pastOcc q ++ if p = q then [i] else []) = [] := by
      intro q
      rw [stepState_seenPaths]
      by_cases hq : q = p
      · subst hq
        rw [alookup_aupsert_self]
        simp
      · rw [alookup_aupsert_ne p q i st.seenPaths hq]
        rw [if_neg (fun h => hq h.symm)]
        simpa using hseen0 q
    have hseen1' : ∀ q fi, alookup q (stepState p c i st).seenPaths = some fi →
        (pastOcc q ++ if p = q then [i] else []).length ≤ 1 →
        (pastOcc q ++ if p = q then [i] else []) = [fi] := by
      intro q fi hlk hlen
      rw [stepState_seenPaths] at hlk
      by_cases hq : q = p
      · subst hq
        rw [alookup_aupsert_self] at hlk
        injection hlk with hfi
        rw [if_pos rfl] at hlen ⊢
        simp only [List.length_append, List.length_singleton] at hlen
        have hnilq : pastOcc q = [] := by
          cases hpq : pastOcc q with
          | nil => rfl
          | cons a l => rw [hpq] at hlen; simp at hlen
        rw [hnilq, hfi]
        rfl
      · rw [alookup_aupsert_ne p q i st.seenPaths hq] at hlk
        rw [if_neg (fun h => hq h.symm)] at hlen ⊢
        simp only [List.append_nil] at hlen ⊢
        exact hseen1 q fi hlk hlen
    have hnd' : ((stepState p c i st).res.Duplicates.map Prod.fst).Nodup := by
      rw [stepState_Duplicates]
      rcases alookup p st.seenPaths with _ | fi
      · exact hnd
      · rcases alookup p st.res.Duplicates with _ | l
        · exact aupsert_keys_nodup _ _ _ (aupsert_keys_nodup _ _ _ hnd)
        · exact aupsert_keys_nodup _ _ _ hnd
    have hdups' : ∀ q, alookup q (stepState p c i st).res.Duplicates =
        if 2 ≤ (pastOcc q ++ if p = q then [i] else []).length
        then some (pastOcc q ++ if p = q then [i] else []) else none := by
      intro q
      rw [stepState_Duplicates]
      rcases hsp : alookup p st.seenPaths with _ | fi
      · have hpnil : pastOcc p = [] := (hseen0 p).mp hsp
        by_cases hq : p = q
        · subst hq
          rw [if_pos rfl]
          rw [hpnil]
          simp only [List.nil_append, List.length_singleton]
          rw [if_neg (by omega)]
          have h := hdups p
          rw [hpnil] at h
          simpa using h
        · rw [if_neg hq]
          simp only [List.append_nil]
          exact hdups q
      · rcases hdl : alookup p st.res.Duplicates with _ | l
        · have h := hdups p
          rw [hdl] at h
          have hlen1 : (pastOcc p).length ≤ 1 := by
            by_contra hgt
            rw [if_pos (by omega)] at h
            exact Option.noConfusion h
          have hpfi : pastOcc p = [fi] := hseen1 p fi hsp hlen1
          by_cases hq : p = q
          · subst hq
            rw [if_pos rfl]
            rw [alookup_aupsert_self]
            rw [alookup_aupsert_self]
            rw [hpfi]
            simp only [Option.getD_some]
            rw [if_pos (by simp)]
          · rw [if_neg hq]
            rw [alookup_aupsert_ne p q _ _ (fun h => hq h.symm)]
            rw [alookup_aupsert_ne p q _ _ (fun h => hq h.symm)]
            simp only [List.append_nil]
            exact hdups q
        · have h := hdups p
          rw [hdl] at h
          have hlen2 : 2 ≤ (pastOcc p).length := by
            by_contra hlt
            rw [if_neg hlt] at h
            exact Option.noConfusion h
          have hlval : l = pastOcc p := by
            rw [if_pos hlen2] at h
            injection h with h
          by_cases hq : p = q
          · subst hq
            rw [if_pos rfl]
            rw [alookup_aupsert_self]
            rw [hdl]
            simp only [Option.getD_some]
            rw [hlval]
            rw [if_pos (by simp; omega)]
          · rw [if_neg hq]
            rw [alookup_aupsert_ne p q _ _ (fun h => hq h.symm)]
            simp only [List.append_nil]
            exact hdups q
    have hdup' : ∃ q, 2 ≤ ((pastOcc q ++ if p = q then [i] else []) ++
        occIdx q rest (i + 1)).length := by
      obtain ⟨q, hq⟩ := hdup
      rw [hocc q] at hq
      exact ⟨q, hq⟩
    obtain ⟨rep, repIdxs, dupsF, herr, hhead, hndF, hcharF⟩ :=
      ih (i + 1) (stepState p c i st)
        (fun q => pastOcc q ++ if p = q then [i] else [])
        (fun x hx => hws x (List.mem_cons_of_mem _ hx))
        hnd' hseen0' hseen1' hdups' hdup'
    refine ⟨rep, repIdxs, dupsF, ?_, hhead, hndF, ?_⟩
    · rw [vfGo]
      rw [if_neg hpe]
      exact herr
    · intro q
      rw [hocc q]
      exact hcharF q

/-- C5: Duplicate-path detection — for every raw entry list whose entries
are all well-shaped and in which some path occurs more than once,
ValidateFiles fails with the DUPLICATE_FILE_PATHS error and no
validated entry list; the duplicates map records, for every duplicated
path, exactly the full list of indices at which that path occurs, and
the representative path named in the error carries exactly its own
occurrence index list. -/
theorem claim_C5 (rs : List RawFile)
    (hws : ∀ r ∈ rs, isWellShaped r = true)
    (hdup : ∃ p, 2 ≤ (occIdx p rs 0).length) :
    ∃ rep repIdxs dupsF,
      ValidateFiles rs = .error (.duplicateFilePaths rep repIdxs dupsF) ∧
      repIdxs = occIdx rep rs 0 ∧
      2 ≤ (occIdx rep rs 0).length ∧
      (∀ p l, (p, l) ∈ dupsF → l = occIdx p rs 0 ∧ 2 ≤ (occIdx p rs 0).length) ∧
      (∀ p, 2 ≤ (occIdx p rs 0).length → (p, occIdx p rs 0) ∈ dupsF) := by
  obtain ⟨rep, repIdxs, dupsF, herr, hhead, hnd, hchar⟩ :=
    vfGo_dup rs 0 ⟨[], ⟨0, 0, "", 0, [], []⟩, []⟩ (fun _ => []) hws
      (by simp)
      (fun p => by simp [alookup])
      (fun p fi h => by simp [alookup] at h)
      (fun p => by simp [alookup])
      (by
        obtain ⟨p, hp⟩ := hdup
        exact ⟨p, by simpa using hp⟩)
  have hchar' : ∀ p, alookup p dupsF =
      if 2 ≤ (occIdx p rs 0).length then some (occIdx p rs 0) else none := by
    intro p
    have h := hchar p
    simpa using h
  have hmemrep : (rep, repIdxs) ∈ dupsF := List.mem_of_mem_head? hhead
  have hlkrep : alookup rep dupsF = some repIdxs :=
    alookup_of_mem_nodup rep repIdxs dupsF hnd hmemrep
  have hrepeq : repIdxs = occIdx rep rs 0 ∧ 2 ≤ (occIdx rep rs 0).length := by
    have h := hchar' rep
    rw [hlkrep] at h
    by_cases hc : 2 ≤ (occIdx rep rs 0).length
    · rw [if_pos hc] at h
      injection h with h
      exact ⟨h, hc⟩
    · rw [if_neg hc] at h
      exact Option.noConfusion h
  refine ⟨rep, repIdxs, dupsF, herr, hrepeq.1, hrepeq.2, ?_, ?_⟩
  · intro p l hmem
    have hlk : alookup p dupsF = some l := alookup_of_mem_nodup p l dupsF hnd hmem
    have h := hchar' p
    rw [hlk] at h
    by_cases hc : 2 ≤ (occIdx p rs 0).length
    · rw [if_pos hc] at h
      injection h with h
      exact ⟨h, hc⟩
    · rw [if_neg hc] at h
      exact Option.noConfusion h
  · intro p hc
    have h := hchar' p
    rw [if_pos hc] at h
    exact mem_of_alookup p _ dupsF h

theorem claim_C5_witness :
    ValidateFiles c5scenario =
      .error (.duplicateFilePaths ("a.txt") [0, 2] [("a.txt", [0, 2])]) ∧
    (∃ rep repIdxs dupsF,
      ValidateFiles c5scenario = .error (.duplicateFilePaths rep repIdxs dupsF) ∧
      repIdxs = occIdx rep c5scenario 0 ∧
      2 ≤ (occIdx rep c5scenario 0).length ∧
      (∀ p l, (p, l) ∈ dupsF → l = occIdx p c5scenario 0 ∧
        2 ≤ (occIdx p c5scenario 0).length) ∧
      (∀ p, 2 ≤ (occIdx p c5scenario 0).length → (p, occIdx p c5scenario 0) ∈ dupsF)) :=
  ⟨rfl, claim_C5 c5scenario (by decide) ⟨"a.txt", by decide⟩⟩
